import Mathlib

/-!
# Verification of the SSD anchor-box matching / encoding / decoding engine

This development shallowly embeds the bounding-box engine of the
`2017-persontyle` SSD training notebook (`training.ipynb`) together with the
notebook-level helper code (`display_boxes`, the train/validation split).

The notebook imports the engine (`BBoxUtility` in `ssd_utils.py`) from outside
the repository snapshot, so the engine itself is modelled from the
specification's description of it (IoU geometry, threshold matching with
force-match and highest-IoU tie-break, variance-scaled regression encoding,
per-class greedy NMS decoding).  All exact rational arithmetic of the engine is
embedded over `ℚ`; the logarithm/exponential used by the width/height
regression channel is embedded over `ℝ` with `Real.log` / `Real.exp`.
-/

namespace SSD

/-- A corner-form box with normalized rational coordinates. -/
structure Box where
  xmin : ℚ
  ymin : ℚ
  xmax : ℚ
  ymax : ℚ
  deriving DecidableEq, Repr

/-- Width of a corner-form box. -/
def Box.w (b : Box) : ℚ := b.xmax - b.xmin

/-- Height of a corner-form box. -/
def Box.h (b : Box) : ℚ := b.ymax - b.ymin

/-- Center x-coordinate of a corner-form box. -/
def Box.cx (b : Box) : ℚ := (b.xmin + b.xmax) / 2

/-- Center y-coordinate of a corner-form box. -/
def Box.cy (b : Box) : ℚ := (b.ymin + b.ymax) / 2

/-- Area of a corner-form box. -/
def Box.area (b : Box) : ℚ := b.w * b.h

/-- A box is valid when width and height are strictly positive. -/
def validBox (b : Box) : Prop := 0 < b.w ∧ 0 < b.h

instance (b : Box) : Decidable (validBox b) := by unfold validBox; infer_instance

/-- Boolean validity check used by the error-reporting wrappers. -/
def isValidBox (b : Box) : Bool := decide (validBox b)

/-- Intersection width of two boxes (clamped at zero). -/
def interW (a b : Box) : ℚ := max 0 (min a.xmax b.xmax - max a.xmin b.xmin)

/-- Intersection height of two boxes (clamped at zero). -/
def interH (a b : Box) : ℚ := max 0 (min a.ymax b.ymax - max a.ymin b.ymin)

/-- Intersection area of two boxes. -/
def interArea (a b : Box) : ℚ := interW a b * interH a b

/-- Modelled from the spec: raw intersection-over-union value of two
corner-form boxes (the `iou` of `ssd_utils.py`, which is not in the repository
snapshot).  Intersection area divided by union area. -/
def iouVal (a b : Box) : ℚ := interArea a b / (a.area + b.area - interArea a b)

/-- Error kinds of the engine, per the specification's error-handling design. -/
inductive BBoxError where
  | invalidBox
  | shapeMismatch
  | invalidParameter
  deriving DecidableEq, Repr

/-- Modelled from the spec: `iou` with its error contract — fails with
`InvalidBoxError` if either supplied box has width or height ≤ 0, otherwise
returns the IoU value.  The `Except` result propagates to the immediate caller
unrecovered. -/
def iouE (a b : Box) : Except BBoxError ℚ :=
  if isValidBox a && isValidBox b then .ok (iouVal a b) else .error .invalidBox

/-- Two boxes are disjoint (non-overlapping) when their x- or y-extents do not
overlap with positive length. -/
def boxDisjoint (a b : Box) : Prop :=
  min a.xmax b.xmax ≤ max a.xmin b.xmin ∨ min a.ymax b.ymax ≤ max a.ymin b.ymin

instance (a b : Box) : Decidable (boxDisjoint a b) := by
  unfold boxDisjoint; infer_instance

/-- An anchor (prior) box: corner-form coordinates plus the four variance
scales, as in `priors[i] = [xmin, ymin, xmax, ymax, varxc, varyc, varw, varh]`. -/
structure Anchor where
  box : Box
  var_cx : ℚ
  var_cy : ℚ
  var_w : ℚ
  var_h : ℚ
  deriving DecidableEq, Repr

/-- A ground-truth box: corner-form coordinates plus a class id in `1..K`. -/
structure GTBox where
  box : Box
  class_id : ℕ
  deriving DecidableEq, Repr

/-- Default box used to totalize list indexing. -/
def dBox : Box := ⟨0, 0, 0, 0⟩

/-- Default anchor used to totalize list indexing. -/
def dAnchor : Anchor := ⟨dBox, 1, 1, 1, 1⟩

/-- Default ground-truth record used to totalize list indexing. -/
def dGT : GTBox := ⟨dBox, 0⟩

/-- IoU of a ground-truth box against every anchor, in anchor order. -/
def iouList (g : Box) (anchors : List Anchor) : List ℚ :=
  anchors.map (fun a => iouVal g a.box)

/-- Index of the first maximal element of a list of rationals (numpy-`argmax`
semantics: ties resolved to the earliest index; `0` on the empty list). -/
def argmaxIdx : List ℚ → ℕ
  | [] => 0
  | [_] => 0
  | x :: y :: rest =>
      let j := argmaxIdx (y :: rest)
      if x < (y :: rest).getD j 0 then j + 1 else 0

/-- Modelled from the spec: the anchors a ground-truth box selects during
matching (step 2 of the encoder of `ssd_utils.py`, not in the repository
snapshot): every anchor whose IoU with the box exceeds the threshold, or, when
there is none, the single anchor with the globally highest IoU (force-match). -/
def gtSel (thr : ℚ) (anchors : List Anchor) (g : Box) : List ℕ :=
  if ((List.range anchors.length).filter
      (fun i => decide (thr < (iouList g anchors).getD i 0))).isEmpty then
    [argmaxIdx (iouList g anchors)]
  else
    (List.range anchors.length).filter
      (fun i => decide (thr < (iouList g anchors).getD i 0))

/-- Ground-truth indices whose selected-anchor set contains anchor `i`. -/
def candGts (thr : ℚ) (gts : List GTBox) (anchors : List Anchor) (i : ℕ) : List ℕ :=
  (List.range gts.length).filter
    (fun j => decide (i ∈ gtSel thr anchors ((gts.getD j dGT).box)))

/-- Modelled from the spec: the ground-truth box anchor `i` is matched to
(step 3 of the encoder): among the ground-truth boxes that selected `i`, the
one with the highest IoU for this anchor, ties broken by the first-encountered
ground-truth index; `none` when no ground-truth box selected `i`. -/
def anchorAssign (thr : ℚ) (gts : List GTBox) (anchors : List Anchor) (i : ℕ) :
    Option ℕ :=
  match candGts thr gts anchors i with
  | [] => none
  | j :: js =>
      some ((j :: js).getD (argmaxIdx ((j :: js).map
        (fun j' => iouVal ((gts.getD j' dGT).box) ((anchors.getD i dAnchor).box)))) 0)

/-- One-hot class vector over `K+1` classes (class `0` is background). -/
def oneHot (K c : ℕ) : List ℚ :=
  (List.range (K + 1)).map (fun k => if k = c then 1 else 0)

/-- Per-anchor encoded training target: match flag, variance-scaled regression
offsets `(tx, ty, tw, th)`, and the one-hot class vector incl. background. -/
structure EncodedTarget where
  is_matched : Bool
  regression : ℝ × ℝ × ℝ × ℝ
  class_onehot : List ℚ

/-- Default (background) target for `K` object classes. -/
def bgTarget (K : ℕ) : EncodedTarget := ⟨false, (0, 0, 0, 0), oneHot K 0⟩

/-- Modelled from the spec: the variance-scaled regression offsets of a
ground-truth box `g` relative to anchor `a` (step 4 of the encoder):
`tx = (gcx - acx)/aw / var_cx`, `ty = (gcy - acy)/ah / var_cy`,
`tw = log(gw/aw) / var_w`, `th = log(gh/ah) / var_h`. -/
noncomputable def encodeReg (a : Anchor) (g : Box) : ℝ × ℝ × ℝ × ℝ :=
  ( (((g.cx - a.box.cx) / a.box.w / a.var_cx : ℚ) : ℝ),
    (((g.cy - a.box.cy) / a.box.h / a.var_cy : ℚ) : ℝ),
    Real.log ((g.w : ℝ) / (a.box.w : ℝ)) / (a.var_w : ℝ),
    Real.log ((g.h : ℝ) / (a.box.h : ℝ)) / (a.var_h : ℝ) )

/-- Modelled from the spec: the matcher/encoder (`assign_boxes` of
`ssd_utils.py`, not in the repository snapshot).  Produces one encoded target
per anchor: matched anchors carry the regression offsets to their assigned
ground-truth box and that box's one-hot class; unmatched anchors are
background. -/
noncomputable def encode (K : ℕ) (thr : ℚ) (gts : List GTBox)
    (anchors : List Anchor) : List EncodedTarget :=
  (List.range anchors.length).map (fun i =>
    match anchorAssign thr gts anchors i with
    | none => bgTarget K
    | some j =>
        ⟨true, encodeReg (anchors.getD i dAnchor) ((gts.getD j dGT).box),
         oneHot K ((gts.getD j dGT).class_id)⟩)

/-- Modelled from the spec: `encode` with its error contract — any supplied
box (ground truth or anchor) with non-positive width or height fails with
`InvalidBoxError`, surfaced immediately to the caller. -/
noncomputable def encodeE (K : ℕ) (thr : ℚ) (gts : List GTBox)
    (anchors : List Anchor) : Except BBoxError (List EncodedTarget) :=
  if (gts.all (fun g => isValidBox g.box)) && (anchors.all (fun a => isValidBox a.box)) then
    .ok (encode K thr gts anchors)
  else
    .error .invalidBox

/-- A corner-form box with real coordinates (decoder output side). -/
structure BoxR where
  xmin : ℝ
  ymin : ℝ
  xmax : ℝ
  ymax : ℝ

/-- Clip a coordinate into `[0, 1]`. -/
noncomputable def clip01 (x : ℝ) : ℝ := max 0 (min 1 x)

/-- Default real box used to totalize list indexing. -/
noncomputable def dBoxR : BoxR := ⟨0, 0, 0, 0⟩

/-- Exact real image of a rational box. -/
noncomputable def boxToR (b : Box) : BoxR := ⟨(b.xmin : ℝ), (b.ymin : ℝ), (b.xmax : ℝ), (b.ymax : ℝ)⟩

/-- Modelled from the spec: the decoder's inverse transform (`decode_boxes` of
`ssd_utils.py`, not in the repository snapshot): recover a candidate box from a
regression target and its anchor, `gcx = acx + tx * var_cx * aw` (similarly for
`gcy`), `gw = aw * exp(tw * var_w)` (similarly for `gh`), then convert
center/size to corner form and clip into `[0, 1]`. -/
noncomputable def decodeBoxReg (a : Anchor) (t : ℝ × ℝ × ℝ × ℝ) : BoxR :=
  let acx : ℝ := (a.box.cx : ℝ)
  let acy : ℝ := (a.box.cy : ℝ)
  let aw : ℝ := (a.box.w : ℝ)
  let ah : ℝ := (a.box.h : ℝ)
  let gcx := acx + t.1 * (a.var_cx : ℝ) * aw
  let gcy := acy + t.2.1 * (a.var_cy : ℝ) * ah
  let gw := aw * Real.exp (t.2.2.1 * (a.var_w : ℝ))
  let gh := ah * Real.exp (t.2.2.2 * (a.var_h : ℝ))
  ⟨clip01 (gcx - gw / 2), clip01 (gcy - gh / 2),
   clip01 (gcx + gw / 2), clip01 (gcy + gh / 2)⟩

/-- Real-valued intersection width (decoder side). -/
noncomputable def interWR (a b : BoxR) : ℝ := max 0 (min a.xmax b.xmax - max a.xmin b.xmin)

/-- Real-valued intersection height (decoder side). -/
noncomputable def interHR (a b : BoxR) : ℝ := max 0 (min a.ymax b.ymax - max a.ymin b.ymin)

/-- Real-valued intersection area (decoder side). -/
noncomputable def interAreaR (a b : BoxR) : ℝ := interWR a b * interHR a b

/-- Real-valued box area (decoder side). -/
noncomputable def areaR (b : BoxR) : ℝ := (b.xmax - b.xmin) * (b.ymax - b.ymin)

/-- Modelled from the spec: intersection-over-union of two decoded (real)
boxes, used by the decoder's non-maximum suppression. -/
noncomputable def iouR (a b : BoxR) : ℝ :=
  interAreaR a b / (areaR a + areaR b - interAreaR a b)

/-- A detection: class id, confidence, decoded box, and the anchor index it
came from (used for deterministic tie-breaking). -/
structure Det where
  class_id : ℕ
  conf : ℚ
  box : BoxR
  aidx : ℕ

/-- The decoder's detection ordering: strictly higher confidence first, ties
broken by ascending original anchor index. -/
def detLE (d d' : Det) : Prop :=
  d'.conf < d.conf ∨ (d.conf = d'.conf ∧ d.aidx ≤ d'.aidx)

instance (d d' : Det) : Decidable (detLE d d') := by unfold detLE; infer_instance

/-- Boolean form of `detLE`, used by the sorting routine. -/
def detLEb (d d' : Det) : Bool := decide (detLE d d')

/-- Decoded candidate boxes, one per anchor, from the raw regressions. -/
noncomputable def decodedBoxes (anchors : List Anchor)
    (regs : List (ℝ × ℝ × ℝ × ℝ)) : List BoxR :=
  (anchors.zip regs).map (fun p => decodeBoxReg p.1 p.2)

/-- Modelled from the spec: per-class candidate collection (step 2 of the
decoder): every anchor whose raw score for class `c` is at least the
confidence threshold contributes a detection of class `c`. -/
noncomputable def candidatesFor (c : ℕ) (conf_thr : ℚ) (scores : List (List ℚ))
    (boxes : List BoxR) : List Det :=
  (List.range scores.length).filterMap (fun i =>
    if conf_thr ≤ (scores.getD i []).getD c 0 then
      some ⟨c, (scores.getD i []).getD c 0, boxes.getD i dBoxR, i⟩
    else none)

open Classical in
/-- Modelled from the spec: greedy per-class non-maximum suppression (step 3
of the decoder): keep the top candidate, discard remaining candidates with IoU
at or above the threshold against it, and repeat until the candidates are
exhausted or `max_per_class` detections are kept. -/
noncomputable def nms (iou_thr : ℚ) : ℕ → List Det → List Det
  | 0, _ => []
  | _ + 1, [] => []
  | m + 1, d :: rest =>
      d :: nms iou_thr m
        (rest.filter (fun d' => decide (iouR d.box d'.box < (iou_thr : ℝ))))

/-- Surviving detections of class `c`: candidates sorted by descending
confidence (anchor index ascending on ties), then greedy NMS capped at
`max_per_class`. -/
noncomputable def classDets (iou_thr conf_thr : ℚ) (mpc c : ℕ)
    (scores : List (List ℚ)) (boxes : List BoxR) : List Det :=
  nms iou_thr mpc ((candidatesFor c conf_thr scores boxes).mergeSort detLEb)

/-- All per-class survivors merged, classes `1..K` in order (step 4 of the
decoder). -/
noncomputable def mergedDets (K : ℕ) (iou_thr conf_thr : ℚ) (mpc : ℕ)
    (scores : List (List ℚ)) (boxes : List BoxR) : List Det :=
  ((List.range K).map
    (fun c => classDets iou_thr conf_thr mpc (c + 1) scores boxes)).flatten

/-- Modelled from the spec: the full decoder (`detection_out` of
`ssd_utils.py`, not in the repository snapshot): decode all anchor boxes,
collect per-class candidates, run per-class NMS, merge, sort all survivors by
descending confidence (stable: ties by ascending anchor index), and keep at
most `max_total`. -/
noncomputable def decodeDets (K : ℕ) (conf_thr iou_thr : ℚ) (mpc mt : ℕ)
    (scores : List (List ℚ)) (regs : List (ℝ × ℝ × ℝ × ℝ))
    (anchors : List Anchor) : List Det :=
  ((mergedDets K iou_thr conf_thr mpc scores (decodedBoxes anchors regs)).mergeSort
    detLEb).take mt

/-- A real box lies inside the unit square. -/
def boxIn01 (b : BoxR) : Prop :=
  (0 ≤ b.xmin ∧ b.xmin ≤ 1) ∧ (0 ≤ b.ymin ∧ b.ymin ≤ 1) ∧
  (0 ≤ b.xmax ∧ b.xmax ≤ 1) ∧ (0 ≤ b.ymax ∧ b.ymax ≤ 1)

/-- Positional serialization of a detection, as consumed by the notebook's
`display_boxes`: `[class_id, confidence, xmin, ymin, xmax, ymax]`. -/
noncomputable def detectionRecord (d : Det) : List ℝ :=
  [(d.class_id : ℝ), ((d.conf : ℚ) : ℝ), d.box.xmin, d.box.ymin, d.box.xmax,
   d.box.ymax]

/-- The decoder's output in the positional-record layout handed to consumers. -/
noncomputable def decodeRecords (K : ℕ) (conf_thr iou_thr : ℚ) (mpc mt : ℕ)
    (scores : List (List ℚ)) (regs : List (ℝ × ℝ × ℝ × ℝ))
    (anchors : List Anchor) : List (List ℝ) :=
  (decodeDets K conf_thr iou_thr mpc mt scores regs anchors).map detectionRecord

/-- Embedding of the notebook's `display_boxes` box selection (`training.ipynb`,
cell defining `display_boxes`): `det_conf = preds[:, 1]` and
`top_indices = [i for i, conf in enumerate(det_conf) if conf >= score_thresh]`.
The comparison reads the module-level global `score_thresh` (modelled as an
explicit first parameter, since the embedding has no globals); the function's
own `th` parameter is never read. -/
def display_boxes_selected (score_thresh : ℚ) (preds : List (List ℚ))
    (th : ℚ) : List (List ℚ) :=
  ((List.range preds.length).filter
    (fun i => decide (score_thresh ≤ (preds.getD i []).getD 1 0))).map
    (fun i => preds.getD i [])

/-- Embedding of Python 2's `round` (half away from zero) for nonnegative
arguments, as applied by the notebook to `train_perc * len(keys)`. -/
def pyRound (x : ℚ) : ℤ := ⌊x + 1/2⌋

/-- Embedding of the notebook's split size `num_train = int(round(train_perc *
len(keys)))` with `train_perc = 0.8` (the float `0.8` rounds identically to
the exact rational `4/5` here, since `4n/5` is never within `n·2⁻⁵²` of a
half-integer). -/
def numTrain (n : ℕ) : ℕ := (pyRound (4/5 * n)).toNat

/-- Embedding of `train_keys = keys[:num_train]` over `keys = sorted(gt.keys())`. -/
def train_keys (keys : List String) : List String :=
  keys.take (numTrain keys.length)

/-- Embedding of `val_keys = keys[num_train:]`. -/
def val_keys (keys : List String) : List String :=
  keys.drop (numTrain keys.length)

lemma interW_comm (a b : Box) : interW a b = interW b a := by
  simp [interW, min_comm, max_comm]

lemma interH_comm (a b : Box) : interH a b = interH b a := by
  simp [interH, min_comm, max_comm]

lemma interArea_comm (a b : Box) : interArea a b = interArea b a := by
  simp [interArea, interW_comm, interH_comm]

lemma iouVal_comm (a b : Box) : iouVal a b = iouVal b a := by
  simp [iouVal, interArea_comm]; rw [add_comm]

lemma interW_self (a : Box) (h : validBox a) : interW a a = a.w := by
  have hw := h.1
  simp only [interW, min_self, max_self]
  exact max_eq_right (by simpa [Box.w] using hw.le)

lemma interH_self (a : Box) (h : validBox a) : interH a a = a.h := by
  have hh := h.2
  simp only [interH, min_self, max_self]
  exact max_eq_right (by simpa [Box.h] using hh.le)

lemma area_pos (a : Box) (h : validBox a) : 0 < a.area :=
  mul_pos h.1 h.2

lemma iouVal_self (a : Box) (h : validBox a) : iouVal a a = 1 := by
  have harea : interArea a a = a.area := by
    simp [interArea, interW_self a h, interH_self a h, Box.area]
  have hpos : (0:ℚ) < a.area := area_pos a h
  simp only [iouVal, harea]
  rw [show a.area + a.area - a.area = a.area by ring]
  exact div_self hpos.ne'

lemma interArea_nonneg (a b : Box) : 0 ≤ interArea a b :=
  mul_nonneg (le_max_left _ _) (le_max_left _ _)

lemma iouVal_disjoint (a b : Box) (h : boxDisjoint a b) : iouVal a b = 0 := by
  have hzero : interArea a b = 0 := by
    rcases h with h | h
    · have hx : interW a b = 0 := by
        unfold interW; exact max_eq_left (sub_nonpos.mpr h)
      simp [interArea, hx]
    · have hy : interH a b = 0 := by
        unfold interH; exact max_eq_left (sub_nonpos.mpr h)
      simp [interArea, hy]
  simp [iouVal, hzero]

lemma isValidBox_iff (b : Box) : isValidBox b = true ↔ validBox b := by
  simp [isValidBox]

lemma iouE_ok (a b : Box) (ha : validBox a) (hb : validBox b) :
    iouE a b = .ok (iouVal a b) := by
  simp [iouE, isValidBox_iff, ha, hb]

/-- C5: for valid boxes `a` and `b`, `iou` is symmetric, `iou a a = 1`, and
`iou` returns `0` on non-overlapping boxes. -/
theorem iou_symm_self_disjoint (a b : Box) (ha : validBox a) (hb : validBox b) :
    iouE a b = iouE b a ∧ iouE a a = .ok 1 ∧
      (boxDisjoint a b → iouE a b = .ok 0) := by
  refine ⟨?_, ?_, ?_⟩
  · rw [iouE_ok a b ha hb, iouE_ok b a hb ha, iouVal_comm]
  · rw [iouE_ok a a ha ha, iouVal_self a ha]
  · intro hd
    rw [iouE_ok a b ha hb, iouVal_disjoint a b hd]

/-- Witness for C5 at concrete boxes `[0,0]×[1,1]` and `[2,0]×[3,1]`. -/
theorem iou_symm_self_disjoint_witness :
    validBox ⟨0, 0, 1, 1⟩ ∧ validBox ⟨2, 0, 3, 1⟩ ∧
      (iouE ⟨0, 0, 1, 1⟩ ⟨2, 0, 3, 1⟩ = iouE ⟨2, 0, 3, 1⟩ ⟨0, 0, 1, 1⟩ ∧
        iouE ⟨0, 0, 1, 1⟩ ⟨0, 0, 1, 1⟩ = .ok 1 ∧
        (boxDisjoint ⟨0, 0, 1, 1⟩ ⟨2, 0, 3, 1⟩ →
          iouE ⟨0, 0, 1, 1⟩ ⟨2, 0, 3, 1⟩ = .ok 0)) :=
  ⟨by norm_num [validBox, Box.w, Box.h], by norm_num [validBox, Box.w, Box.h],
    iou_symm_self_disjoint ⟨0, 0, 1, 1⟩ ⟨2, 0, 3, 1⟩
      (by norm_num [validBox, Box.w, Box.h]) (by norm_num [validBox, Box.w, Box.h])⟩

/-- C7: `iou` and `encode` fail with `InvalidBoxError` exactly when a supplied
box (anchor or ground truth) has non-positive width or height, and succeed
(the `Except` value is `ok`, the error thus never swallowed) exactly when every
supplied box has strictly positive width and height. -/
theorem invalid_box_error_iff (a b : Box) (K : ℕ) (thr : ℚ) (gts : List GTBox)
    (anchors : List Anchor) :
    (iouE a b = .error .invalidBox ↔ ¬(validBox a ∧ validBox b)) ∧
    ((∃ q, iouE a b = Except.ok q) ↔ (validBox a ∧ validBox b)) ∧
    (encodeE K thr gts anchors = .error .invalidBox ↔
      ¬((∀ g ∈ gts, validBox g.box) ∧ (∀ x ∈ anchors, validBox x.box))) ∧
    ((∃ ts, encodeE K thr gts anchors = Except.ok ts) ↔
      ((∀ g ∈ gts, validBox g.box) ∧ (∀ x ∈ anchors, validBox x.box))) := by
  have hiou : (isValidBox a && isValidBox b) = true ↔ (validBox a ∧ validBox b) := by
    simp [isValidBox_iff]
  have henc : ((gts.all (fun g => isValidBox g.box)) &&
      (anchors.all (fun x => isValidBox x.box))) = true ↔
      ((∀ g ∈ gts, validBox g.box) ∧ (∀ x ∈ anchors, validBox x.box)) := by
    simp [List.all_eq_true, isValidBox_iff]
  refine ⟨?_, ?_, ?_, ?_⟩
  · unfold iouE
    rcases Bool.eq_false_or_eq_true (isValidBox a && isValidBox b) with h | h
    · simp only [h, Bool.false_eq_true, if_false]
      simp [← hiou, h]
    · simp only [h, if_true]
      simp [← hiou, h]
  · unfold iouE
    rcases Bool.eq_false_or_eq_true (isValidBox a && isValidBox b) with h | h
    · simp only [h, Bool.false_eq_true, if_false]
      simp [← hiou, h]
    · simp only [h, if_true]
      simp [← hiou, h]
  · unfold encodeE
    rcases Bool.eq_false_or_eq_true ((gts.all (fun g => isValidBox g.box)) &&
        (anchors.all (fun x => isValidBox x.box))) with h | h
    · simp only [h, Bool.false_eq_true, if_false]
      simp [← henc, h]
    · simp only [h, if_true]
      simp [← henc, h]
  · unfold encodeE
    rcases Bool.eq_false_or_eq_true ((gts.all (fun g => isValidBox g.box)) &&
        (anchors.all (fun x => isValidBox x.box))) with h | h
    · simp only [h, Bool.false_eq_true, if_false]
      simp [← henc, h]
    · simp only [h, if_true]
      simp [← henc, h]

lemma oneHot_zero (K : ℕ) : oneHot K 0 = 1 :: List.replicate K 0 := by
  unfold oneHot
  rw [List.range_succ_eq_map]
  simp only [List.map_cons, if_pos rfl, List.map_map]
  congr 1
  have : ((fun k => if k = 0 then (1:ℚ) else 0) ∘ Nat.succ) = fun _ => (0:ℚ) := by
    funext k; simp
  rw [this, List.map_const', List.length_range]

lemma encode_nil (K : ℕ) (thr : ℚ) (anchors : List Anchor) :
    encode K thr [] anchors = List.replicate anchors.length (bgTarget K) := by
  unfold encode
  have h : ∀ i, anchorAssign thr [] anchors i = none := by
    intro i
    unfold anchorAssign candGts
    simp
  simp only [h]
  rw [List.map_const', List.length_range]

/-- C6: encoding an empty ground-truth list succeeds (no exception) and
returns one target per anchor, each unmatched with the background one-hot
`[1, 0, ..., 0]` and zero regression offsets. -/
theorem encode_empty_gt (K : ℕ) (thr : ℚ) (anchors : List Anchor)
    (hva : ∀ a ∈ anchors, validBox a.box) :
    encodeE K thr [] anchors =
      .ok (List.replicate anchors.length ⟨false, (0, 0, 0, 0), 1 :: List.replicate K 0⟩) := by
  unfold encodeE
  have hcond : (([] : List GTBox).all (fun g => isValidBox g.box) &&
      anchors.all (fun a => isValidBox a.box)) = true := by
    simp [List.all_eq_true, isValidBox_iff]
    exact hva
  rw [if_pos hcond, encode_nil]
  have : bgTarget K = ⟨false, (0, 0, 0, 0), 1 :: List.replicate K 0⟩ := by
    unfold bgTarget
    rw [oneHot_zero]
  rw [this]

/-- Witness for C6 at a concrete one-anchor set with three object classes. -/
theorem encode_empty_gt_witness :
    (∀ a ∈ [(⟨⟨0, 0, 1, 1⟩, 1, 1, 1, 1⟩ : Anchor)], validBox a.box) ∧
      encodeE 3 (1/2) [] [⟨⟨0, 0, 1, 1⟩, 1, 1, 1, 1⟩] =
        .ok (List.replicate 1 ⟨false, (0, 0, 0, 0), 1 :: List.replicate 3 0⟩) :=
  ⟨by norm_num [validBox, Box.w, Box.h], by
    have := encode_empty_gt 3 (1/2) [⟨⟨0, 0, 1, 1⟩, 1, 1, 1, 1⟩]
      (by norm_num [validBox, Box.w, Box.h])
    simpa using this⟩

lemma clip01_of_mem (x : ℝ) (h0 : 0 ≤ x) (h1 : x ≤ 1) : clip01 x = x := by
  unfold clip01
  rw [min_eq_right h1, max_eq_right h0]

/-- Core round-trip law: decoding the exact regression offsets produced for a
valid ground-truth box inside `[0,1]` recovers that box exactly. -/
theorem decodeBoxReg_encodeReg (a : Anchor) (g : Box)
    (hva : validBox a.box)
    (hvars : 0 < a.var_cx ∧ 0 < a.var_cy ∧ 0 < a.var_w ∧ 0 < a.var_h)
    (hvg : validBox g)
    (hb : 0 ≤ g.xmin ∧ 0 ≤ g.ymin ∧ g.xmax ≤ 1 ∧ g.ymax ≤ 1) :
    decodeBoxReg a (encodeReg a g) = boxToR g := by
  obtain ⟨haw, hah⟩ := hva
  obtain ⟨hcx, hcy, hw, hh⟩ := hvars
  obtain ⟨hgw, hgh⟩ := hvg
  have hawR : (0:ℝ) < (a.box.w : ℝ) := by exact_mod_cast haw
  have hahR : (0:ℝ) < (a.box.h : ℝ) := by exact_mod_cast hah
  have hcxR : ((a.var_cx : ℚ) : ℝ) ≠ 0 := by exact_mod_cast hcx.ne'
  have hcyR : ((a.var_cy : ℚ) : ℝ) ≠ 0 := by exact_mod_cast hcy.ne'
  have hwR : ((a.var_w : ℚ) : ℝ) ≠ 0 := by exact_mod_cast hw.ne'
  have hhR : ((a.var_h : ℚ) : ℝ) ≠ 0 := by exact_mod_cast hh.ne'
  have hgwR : (0:ℝ) < (g.w : ℝ) := by exact_mod_cast hgw
  have hghR : (0:ℝ) < (g.h : ℝ) := by exact_mod_cast hgh
  have hratw : (0:ℝ) < (g.w : ℝ) / (a.box.w : ℝ) := div_pos hgwR hawR
  have hrath : (0:ℝ) < (g.h : ℝ) / (a.box.h : ℝ) := div_pos hghR hahR
  unfold decodeBoxReg encodeReg
  have hexpw : Real.exp (Real.log ((g.w : ℝ) / (a.box.w : ℝ)) / (a.var_w : ℝ) * (a.var_w : ℝ))
      = (g.w : ℝ) / (a.box.w : ℝ) := by
    rw [div_mul_cancel₀ _ hwR, Real.exp_log hratw]
  have hexph : Real.exp (Real.log ((g.h : ℝ) / (a.box.h : ℝ)) / (a.var_h : ℝ) * (a.var_h : ℝ))
      = (g.h : ℝ) / (a.box.h : ℝ) := by
    rw [div_mul_cancel₀ _ hhR, Real.exp_log hrath]
  simp only [hexpw, hexph]
  have hcxeq : ((a.box.cx : ℚ) : ℝ) + (((g.cx - a.box.cx) / a.box.w / a.var_cx : ℚ) : ℝ) *
      (a.var_cx : ℝ) * (a.box.w : ℝ) = (g.cx : ℝ) := by
    push_cast
    field_simp
    ring
  have hcyeq : ((a.box.cy : ℚ) : ℝ) + (((g.cy - a.box.cy) / a.box.h / a.var_cy : ℚ) : ℝ) *
      (a.var_cy : ℝ) * (a.box.h : ℝ) = (g.cy : ℝ) := by
    push_cast
    field_simp
    ring
  have hgweq : ((a.box.w : ℚ) : ℝ) * ((g.w : ℝ) / (a.box.w : ℝ)) = (g.w : ℝ) :=
    mul_div_cancel₀ _ hawR.ne'
  have hgheq : ((a.box.h : ℚ) : ℝ) * ((g.h : ℝ) / (a.box.h : ℝ)) = (g.h : ℝ) :=
    mul_div_cancel₀ _ hahR.ne'
  simp only [hcxeq, hcyeq, hgweq, hgheq]
  have hxmin : (g.cx : ℝ) - (g.w : ℝ) / 2 = (g.xmin : ℝ) := by
    push_cast [Box.cx, Box.w]
    ring
  have hymin : (g.cy : ℝ) - (g.h : ℝ) / 2 = (g.ymin : ℝ) := by
    push_cast [Box.cy, Box.h]
    ring
  have hxmax : (g.cx : ℝ) + (g.w : ℝ) / 2 = (g.xmax : ℝ) := by
    push_cast [Box.cx, Box.w]
    ring
  have hymax : (g.cy : ℝ) + (g.h : ℝ) / 2 = (g.ymax : ℝ) := by
    push_cast [Box.cy, Box.h]
    ring
  rw [hxmin, hymin, hxmax, hymax]
  have hx0 : (0:ℝ) ≤ (g.xmin : ℝ) := by exact_mod_cast hb.1
  have hy0 : (0:ℝ) ≤ (g.ymin : ℝ) := by exact_mod_cast hb.2.1
  have hx1 : ((g.xmax : ℚ) : ℝ) ≤ 1 := by exact_mod_cast hb.2.2.1
  have hy1 : ((g.ymax : ℚ) : ℝ) ≤ 1 := by exact_mod_cast hb.2.2.2
  have hxminmax : (g.xmin : ℝ) ≤ (g.xmax : ℝ) := by
    have : g.xmin ≤ g.xmax := by
      have := hgw
      simp [Box.w] at this
      linarith
    exact_mod_cast this
  have hyminmax : (g.ymin : ℝ) ≤ (g.ymax : ℝ) := by
    have : g.ymin ≤ g.ymax := by
      have := hgh
      simp [Box.h] at this
      linarith
    exact_mod_cast this
  unfold boxToR
  rw [clip01_of_mem _ hx0 (le_trans hxminmax hx1),
      clip01_of_mem _ hy0 (le_trans hyminmax hy1),
      clip01_of_mem _ (le_trans hx0 hxminmax) hx1,
      clip01_of_mem _ (le_trans hy0 hyminmax) hy1]

lemma encode_getD (K : ℕ) (thr : ℚ) (gts : List GTBox) (anchors : List Anchor)
    (i : ℕ) (hi : i < anchors.length) :
    (encode K thr gts anchors).getD i (bgTarget K) =
      match anchorAssign thr gts anchors i with
      | none => bgTarget K
      | some j =>
          ⟨true, encodeReg (anchors.getD i dAnchor) ((gts.getD j dGT).box),
           oneHot K ((gts.getD j dGT).class_id)⟩ := by
  unfold encode
  have hlen : i < ((List.range anchors.length).map (fun i =>
      match anchorAssign thr gts anchors i with
      | none => bgTarget K
      | some j =>
          (⟨true, encodeReg (anchors.getD i dAnchor) ((gts.getD j dGT).box),
           oneHot K ((gts.getD j dGT).class_id)⟩ : EncodedTarget))).length := by
    simpa using hi
  rw [List.getD_eq_getElem _ _ hlen, List.getElem_map, List.getElem_range]

/-- C1: for every anchor `i` that `encode` matches to ground-truth box `j`
(with positive variances, a valid anchor, and a valid ground-truth box inside
`[0,1]`), applying the Decoder's inverse transform to the exact regression
target stored in the encoded output reproduces the ground-truth box exactly. -/
theorem encode_decode_roundtrip (K : ℕ) (thr : ℚ) (gts : List GTBox)
    (anchors : List Anchor) (i j : ℕ) (hi : i < anchors.length)
    (hj : j < gts.length)
    (hassign : anchorAssign thr gts anchors i = some j)
    (hva : validBox (anchors.getD i dAnchor).box)
    (hvars : 0 < (anchors.getD i dAnchor).var_cx ∧
      0 < (anchors.getD i dAnchor).var_cy ∧
      0 < (anchors.getD i dAnchor).var_w ∧ 0 < (anchors.getD i dAnchor).var_h)
    (hvg : validBox ((gts.getD j dGT).box))
    (hbnd : 0 ≤ (gts.getD j dGT).box.xmin ∧ 0 ≤ (gts.getD j dGT).box.ymin ∧
      (gts.getD j dGT).box.xmax ≤ 1 ∧ (gts.getD j dGT).box.ymax ≤ 1) :
    decodeBoxReg (anchors.getD i dAnchor)
        ((encode K thr gts anchors).getD i (bgTarget K)).regression =
      boxToR ((gts.getD j dGT).box) := by
  rw [encode_getD K thr gts anchors i hi, hassign]
  exact decodeBoxReg_encodeReg _ _ hva hvars hvg hbnd

lemma w1_iou : iouVal ⟨0, 0, 1, 1⟩ ⟨0, 0, 1, 1⟩ = 1 := by
  norm_num [iouVal, interArea, interW, interH, Box.area, Box.w, Box.h]

lemma w1_sel : gtSel (1/2) [⟨⟨0, 0, 1, 1⟩, 1, 1, 1, 1⟩] ⟨0, 0, 1, 1⟩ = [0] := by
  norm_num [gtSel, iouList, w1_iou, List.filter]

lemma w1_assign :
    anchorAssign (1/2) [⟨⟨0, 0, 1, 1⟩, 2⟩] [⟨⟨0, 0, 1, 1⟩, 1, 1, 1, 1⟩] 0 = some 0 := by
  norm_num [anchorAssign, candGts, w1_sel, List.filter, argmaxIdx]

/-- Witness for C1: anchor `[0,0]×[1,1]` (all variances `1`) is matched to the
identical ground-truth box of class `2`, and the round-trip law holds there. -/
theorem encode_decode_roundtrip_witness :
    anchorAssign (1/2) [⟨⟨0, 0, 1, 1⟩, 2⟩] [⟨⟨0, 0, 1, 1⟩, 1, 1, 1, 1⟩] 0 = some 0 ∧
      decodeBoxReg ([(⟨⟨0, 0, 1, 1⟩, 1, 1, 1, 1⟩ : Anchor)].getD 0 dAnchor)
          ((encode 3 (1/2) [⟨⟨0, 0, 1, 1⟩, 2⟩] [⟨⟨0, 0, 1, 1⟩, 1, 1, 1, 1⟩]).getD 0
            (bgTarget 3)).regression =
        boxToR (([(⟨⟨0, 0, 1, 1⟩, 2⟩ : GTBox)].getD 0 dGT).box) :=
  ⟨w1_assign,
    encode_decode_roundtrip 3 (1/2) [⟨⟨0, 0, 1, 1⟩, 2⟩] [⟨⟨0, 0, 1, 1⟩, 1, 1, 1, 1⟩] 0 0
      (by norm_num) (by norm_num) w1_assign
      (by norm_num [validBox, Box.w, Box.h])
      (by norm_num)
      (by norm_num [validBox, Box.w, Box.h])
      (by norm_num)⟩

lemma argmaxIdx_lt : ∀ (s : List ℚ), s ≠ [] → argmaxIdx s < s.length
  | [_], _ => by simp [argmaxIdx]
  | x :: y :: rest, _ => by
      have ih := argmaxIdx_lt (y :: rest) (by simp)
      simp only [argmaxIdx]
      split
      · exact Nat.succ_lt_succ ih
      · simp

lemma argmaxIdx_ge : ∀ (s : List ℚ) (i : ℕ), i < s.length →
    s.getD i 0 ≤ s.getD (argmaxIdx s) 0
  | [x], i, hi => by
      have hi0 : i = 0 := by
        simp only [List.length_singleton] at hi
        omega
      subst hi0
      simp [argmaxIdx]
  | x :: y :: rest, i, hi => by
      have ih := fun (i' : ℕ) (hi' : i' < (y :: rest).length) =>
        argmaxIdx_ge (y :: rest) i' hi'
      simp only [argmaxIdx]
      split
      · rename_i hlt
        cases i with
        | zero => simpa using hlt.le
        | succ i' =>
            have hi' : i' < (y :: rest).length := by simpa using hi
            simpa using ih i' hi'
      · rename_i hge
        push_neg at hge
        cases i with
        | zero => simp
        | succ i' =>
            have hi' : i' < (y :: rest).length := by simpa using hi
            have h1 := ih i' hi'
            simp only [List.getD_cons_succ, List.getD_cons_zero]
            exact le_trans h1 hge

lemma iouList_getD (g : Box) (anchors : List Anchor) (i : ℕ)
    (hi : i < anchors.length) :
    (iouList g anchors).getD i 0 = iouVal g ((anchors.getD i dAnchor).box) := by
  unfold iouList
  rw [List.getD_eq_getElem _ _ (by simpa using hi), List.getElem_map,
    List.getD_eq_getElem _ _ hi]

lemma iouList_length (g : Box) (anchors : List Anchor) :
    (iouList g anchors).length = anchors.length := by
  simp [iouList]

lemma mem_gtSel_of_above (thr : ℚ) (anchors : List Anchor) (g : Box) (i : ℕ)
    (hi : i < anchors.length)
    (h : thr < iouVal g ((anchors.getD i dAnchor).box)) :
    i ∈ gtSel thr anchors g := by
  have hmem : i ∈ (List.range anchors.length).filter
      (fun i => decide (thr < (iouList g anchors).getD i 0)) := by
    rw [List.mem_filter]
    refine ⟨List.mem_range.mpr hi, ?_⟩
    rw [iouList_getD g anchors i hi]
    exact decide_eq_true h
  have hne : ((List.range anchors.length).filter
      (fun i => decide (thr < (iouList g anchors).getD i 0))).isEmpty = false := by
    cases hfe : ((List.range anchors.length).filter
        (fun i => decide (thr < (iouList g anchors).getD i 0))).isEmpty
    · rfl
    · rw [List.isEmpty_iff] at hfe
      rw [hfe] at hmem
      exact absurd hmem (List.not_mem_nil i)
  unfold gtSel
  rw [if_neg (by rw [hne]; simp)]
  exact hmem

lemma gtSel_of_none_above (thr : ℚ) (anchors : List Anchor) (g : Box)
    (h : ∀ i, i < anchors.length → ¬ thr < iouVal g ((anchors.getD i dAnchor).box)) :
    gtSel thr anchors g = [argmaxIdx (iouList g anchors)] := by
  have hfil : (List.range anchors.length).filter
      (fun i => decide (thr < (iouList g anchors).getD i 0)) = [] := by
    rw [List.filter_eq_nil_iff]
    intro i hi
    rw [List.mem_range] at hi
    rw [iouList_getD g anchors i hi]
    simpa using h i hi
  unfold gtSel
  rw [if_pos (by rw [hfil]; simp)]

lemma mem_gtSel_lt (thr : ℚ) (anchors : List Anchor) (g : Box) (i : ℕ)
    (hanc : anchors ≠ []) (h : i ∈ gtSel thr anchors g) : i < anchors.length := by
  unfold gtSel at h
  split at h
  · rw [List.mem_singleton] at h
    subst h
    have hlen : iouList g anchors ≠ [] := by
      intro hc
      apply hanc
      have := iouList_length g anchors
      rw [hc] at this
      exact List.eq_nil_of_length_eq_zero this.symm
    have := argmaxIdx_lt (iouList g anchors) hlen
    rwa [iouList_length] at this
  · have := List.mem_filter.mp h
    exact List.mem_range.mp this.1

lemma mem_candGts_iff (thr : ℚ) (gts : List GTBox) (anchors : List Anchor)
    (i j : ℕ) :
    j ∈ candGts thr gts anchors i ↔
      j < gts.length ∧ i ∈ gtSel thr anchors ((gts.getD j dGT).box) := by
  unfold candGts
  rw [List.mem_filter, List.mem_range]
  simp

lemma candGts_nodup (thr : ℚ) (gts : List GTBox) (anchors : List Anchor) (i : ℕ) :
    (candGts thr gts anchors i).Nodup := by
  unfold candGts
  exact (List.nodup_range _).filter _

lemma nodup_all_eq_singleton (l : List ℕ) (j : ℕ) (hnd : l.Nodup) (hmem : j ∈ l)
    (hall : ∀ x ∈ l, x = j) : l = [j] := by
  cases l with
  | nil => exact absurd hmem (List.not_mem_nil j)
  | cons x t =>
      have hx : x = j := hall x (List.mem_cons_self x t)
      subst hx
      have ht : t = [] := by
        cases t with
        | nil => rfl
        | cons y t' =>
            have hy : y = x := hall y (by simp)
            subst hy
            have := List.nodup_cons.mp hnd
            exact absurd (by simp : y ∈ y :: t') (by simpa using this.1)
      rw [ht]

lemma anchorAssign_of_cand_singleton (thr : ℚ) (gts : List GTBox)
    (anchors : List Anchor) (i j : ℕ)
    (h : candGts thr gts anchors i = [j]) :
    anchorAssign thr gts anchors i = some j := by
  unfold anchorAssign
  rw [h]
  simp [argmaxIdx]

lemma candGts_eq_singleton_of_disjoint (thr : ℚ) (gts : List GTBox)
    (anchors : List Anchor) (i j : ℕ) (hj : j < gts.length)
    (hmem : i ∈ gtSel thr anchors ((gts.getD j dGT).box))
    (hdisj : ∀ j₁, j₁ < gts.length → ∀ j₂, j₂ < gts.length → j₁ ≠ j₂ →
      ∀ i', i' ∈ gtSel thr anchors ((gts.getD j₁ dGT).box) →
        i' ∉ gtSel thr anchors ((gts.getD j₂ dGT).box)) :
    candGts thr gts anchors i = [j] := by
  apply nodup_all_eq_singleton _ _ (candGts_nodup thr gts anchors i)
  · exact (mem_candGts_iff thr gts anchors i j).mpr ⟨hj, hmem⟩
  · intro j' hj'
    rw [mem_candGts_iff] at hj'
    by_contra hne
    exact hdisj j hj j' hj'.1 (fun hc => hne hc.symm) i hmem hj'.2

/-- C2 (amended): when no anchor is selected by two different ground-truth
boxes, every ground-truth box of a non-empty valid list gets at least one
matched anchor (which `encode` marks as matched), every anchor whose IoU with
it is above the threshold is matched to it, and when no anchor is above the
threshold its globally-highest-IoU anchor is force-matched to it. -/
theorem encode_match_coverage (K : ℕ) (thr : ℚ) (gts : List GTBox)
    (anchors : List Anchor) (hgts : gts ≠ []) (hanc : anchors ≠ [])
    (hvalid : ∀ g ∈ gts, validBox g.box)
    (hdisj : ∀ j₁, j₁ < gts.length → ∀ j₂, j₂ < gts.length → j₁ ≠ j₂ →
      ∀ i', i' ∈ gtSel thr anchors ((gts.getD j₁ dGT).box) →
        i' ∉ gtSel thr anchors ((gts.getD j₂ dGT).box)) :
    ∀ j, j < gts.length →
      ((∃ i, i < anchors.length ∧ anchorAssign thr gts anchors i = some j ∧
          ((encode K thr gts anchors).getD i (bgTarget K)).is_matched = true) ∧
       (∀ i, i < anchors.length →
          thr < iouVal ((gts.getD j dGT).box) ((anchors.getD i dAnchor).box) →
          anchorAssign thr gts anchors i = some j) ∧
       ((∀ i, i < anchors.length →
            ¬ thr < iouVal ((gts.getD j dGT).box) ((anchors.getD i dAnchor).box)) →
          anchorAssign thr gts anchors
              (argmaxIdx (iouList ((gts.getD j dGT).box) anchors)) = some j ∧
          ∀ i, i < anchors.length →
            iouVal ((gts.getD j dGT).box) ((anchors.getD i dAnchor).box) ≤
              iouVal ((gts.getD j dGT).box)
                ((anchors.getD (argmaxIdx (iouList ((gts.getD j dGT).box) anchors))
                  dAnchor).box))) := by
  intro j hj
  have hassign_of_mem : ∀ i, i ∈ gtSel thr anchors ((gts.getD j dGT).box) →
      anchorAssign thr gts anchors i = some j := by
    intro i hi
    exact anchorAssign_of_cand_singleton thr gts anchors i j
      (candGts_eq_singleton_of_disjoint thr gts anchors i j hj hi hdisj)
  have hmatched : ∀ i, i < anchors.length →
      anchorAssign thr gts anchors i = some j →
      ((encode K thr gts anchors).getD i (bgTarget K)).is_matched = true := by
    intro i hi ha
    rw [encode_getD K thr gts anchors i hi, ha]
  refine ⟨?_, ?_, ?_⟩
  · by_cases habove : ∃ i, i < anchors.length ∧
        thr < iouVal ((gts.getD j dGT).box) ((anchors.getD i dAnchor).box)
    · obtain ⟨i, hi, hiou⟩ := habove
      have hsel := mem_gtSel_of_above thr anchors _ i hi hiou
      exact ⟨i, hi, hassign_of_mem i hsel,
        hmatched i hi (hassign_of_mem i hsel)⟩
    · push_neg at habove
      have hsel := gtSel_of_none_above thr anchors ((gts.getD j dGT).box)
        (fun i hi => not_lt_of_le (habove i hi))
      have hargmem : argmaxIdx (iouList ((gts.getD j dGT).box) anchors) ∈
          gtSel thr anchors ((gts.getD j dGT).box) := by
        rw [hsel]; simp
      have harglt : argmaxIdx (iouList ((gts.getD j dGT).box) anchors) <
          anchors.length := mem_gtSel_lt thr anchors _ _ hanc hargmem
      exact ⟨_, harglt, hassign_of_mem _ hargmem,
        hmatched _ harglt (hassign_of_mem _ hargmem)⟩
  · intro i hi hiou
    exact hassign_of_mem i (mem_gtSel_of_above thr anchors _ i hi hiou)
  · intro hnone
    have hsel := gtSel_of_none_above thr anchors ((gts.getD j dGT).box) hnone
    have hargmem : argmaxIdx (iouList ((gts.getD j dGT).box) anchors) ∈
        gtSel thr anchors ((gts.getD j dGT).box) := by
      rw [hsel]; simp
    refine ⟨hassign_of_mem _ hargmem, ?_⟩
    intro i hi
    have harglt : argmaxIdx (iouList ((gts.getD j dGT).box) anchors) <
        anchors.length := mem_gtSel_lt thr anchors _ _ hanc hargmem
    have := argmaxIdx_ge (iouList ((gts.getD j dGT).box) anchors) i
      (by rwa [iouList_length])
    rwa [iouList_getD _ _ i hi, iouList_getD _ _ _ harglt] at this

lemma cx2_iou2 : iouVal ⟨0, 0, 7/8, 1⟩ ⟨0, 0, 1, 1⟩ = 7/8 := by
  norm_num [iouVal, interArea, interW, interH, Box.area, Box.w, Box.h]

lemma cx2_sel2 : gtSel (1/2) [⟨⟨0, 0, 1, 1⟩, 1, 1, 1, 1⟩] ⟨0, 0, 7/8, 1⟩ = [0] := by
  norm_num [gtSel, iouList, cx2_iou2, List.filter]

lemma cx2_assign :
    anchorAssign (1/2) [⟨⟨0, 0, 1, 1⟩, 1⟩, ⟨⟨0, 0, 7/8, 1⟩, 2⟩]
      [⟨⟨0, 0, 1, 1⟩, 1, 1, 1, 1⟩] 0 = some 0 := by
  norm_num [anchorAssign, candGts, w1_sel, cx2_sel2, List.filter, argmaxIdx,
    w1_iou, cx2_iou2, iouList]

/-- Counterexample to C2 as stated: two valid overlapping ground-truth boxes
and a single anchor whose IoU is above the threshold for both.  The tie-break
assigns the anchor to ground-truth box `0`, so ground-truth box `1` ends up
with no matched anchor at all, even though an anchor has IoU above the
threshold for it (so the force-match rule does not fire). -/
theorem encode_match_coverage_counterexample :
    ([(⟨⟨0, 0, 1, 1⟩, 1⟩ : GTBox), ⟨⟨0, 0, 7/8, 1⟩, 2⟩] ≠ []) ∧
    (∀ g ∈ [(⟨⟨0, 0, 1, 1⟩, 1⟩ : GTBox), ⟨⟨0, 0, 7/8, 1⟩, 2⟩], validBox g.box) ∧
    (1/2 < iouVal ⟨0, 0, 7/8, 1⟩ ⟨0, 0, 1, 1⟩) ∧
    ¬ (∃ i, i < 1 ∧ anchorAssign (1/2) [⟨⟨0, 0, 1, 1⟩, 1⟩, ⟨⟨0, 0, 7/8, 1⟩, 2⟩]
        [⟨⟨0, 0, 1, 1⟩, 1, 1, 1, 1⟩] i = some 1) := by
  refine ⟨by simp, by norm_num [validBox, Box.w, Box.h], by rw [cx2_iou2]; norm_num, ?_⟩
  rintro ⟨i, hi, hass⟩
  have hi0 : i = 0 := by omega
  subst hi0
  rw [cx2_assign] at hass
  simp at hass

/-- Witness for the amended C2 at a single valid ground-truth box and a single
identical anchor (the selected-anchor sets are trivially pairwise disjoint). -/
theorem encode_match_coverage_witness :
    (∀ g ∈ [(⟨⟨0, 0, 1, 1⟩, 1⟩ : GTBox)], validBox g.box) ∧
      (∃ i, i < List.length [(⟨⟨0, 0, 1, 1⟩, 1, 1, 1, 1⟩ : Anchor)] ∧
        anchorAssign (1/2) [⟨⟨0, 0, 1, 1⟩, 1⟩] [⟨⟨0, 0, 1, 1⟩, 1, 1, 1, 1⟩] i = some 0 ∧
        ((encode 3 (1/2) [⟨⟨0, 0, 1, 1⟩, 1⟩] [⟨⟨0, 0, 1, 1⟩, 1, 1, 1, 1⟩]).getD i
          (bgTarget 3)).is_matched = true) :=
  ⟨by norm_num [validBox, Box.w, Box.h],
    ((encode_match_coverage 3 (1/2) [⟨⟨0, 0, 1, 1⟩, 1⟩] [⟨⟨0, 0, 1, 1⟩, 1, 1, 1, 1⟩]
      (by simp) (by simp) (by norm_num [validBox, Box.w, Box.h])
      (by intro j₁ hj₁ j₂ hj₂ hne i' hi'; simp only [List.length_singleton] at hj₁ hj₂; omega))
      0 (by norm_num)).1⟩

lemma iouR_comm (a b : BoxR) : iouR a b = iouR b a := by
  have hw : interWR a b = interWR b a := by simp [interWR, min_comm, max_comm]
  have hh : interHR a b = interHR b a := by simp [interHR, min_comm, max_comm]
  have ha : interAreaR a b = interAreaR b a := by simp [interAreaR, hw, hh]
  simp [iouR, ha]
  rw [add_comm]

lemma nms_sublist (iou_thr : ℚ) : ∀ (m : ℕ) (l : List Det),
    (nms iou_thr m l).Sublist l
  | 0, _ => by simp [nms]
  | _ + 1, [] => by simp [nms]
  | m + 1, d :: rest => by
      rw [nms]
      exact List.Sublist.cons₂ d
        ((nms_sublist iou_thr m _).trans (List.filter_sublist rest))

lemma nms_length_le (iou_thr : ℚ) : ∀ (m : ℕ) (l : List Det),
    (nms iou_thr m l).length ≤ m
  | 0, _ => by simp [nms]
  | _ + 1, [] => by simp [nms]
  | m + 1, d :: rest => by
      rw [nms]
      simpa using nms_length_le iou_thr m _

lemma nms_pairwise (iou_thr : ℚ) : ∀ (m : ℕ) (l : List Det),
    (nms iou_thr m l).Pairwise
      (fun d d' => iouR d.box d'.box < (iou_thr : ℝ))
  | 0, _ => by simp [nms]
  | _ + 1, [] => by simp [nms]
  | m + 1, d :: rest => by
      rw [nms]
      refine List.Pairwise.cons ?_ (nms_pairwise iou_thr m _)
      intro d' hd'
      have hmem : d' ∈ rest.filter
          (fun d' => decide (iouR d.box d'.box < (iou_thr : ℝ))) :=
        (nms_sublist iou_thr m _).mem hd'
      have := (List.mem_filter.mp hmem).2
      exact of_decide_eq_true this

lemma detLEb_total (a b : Det) : (detLEb a b || detLEb b a) = true := by
  rcases lt_trichotomy a.conf b.conf with h | h | h
  · have : detLE b a := Or.inl h
    simp [detLEb, this]
  · rcases Nat.le_total a.aidx b.aidx with h' | h'
    · have : detLE a b := Or.inr ⟨h, h'⟩
      simp [detLEb, this]
    · have : detLE b a := Or.inr ⟨h.symm, h'⟩
      simp [detLEb, this]
  · have : detLE a b := Or.inl h
    simp [detLEb, this]

lemma detLEb_trans (a b c : Det) (hab : detLEb a b = true)
    (hbc : detLEb b c = true) : detLEb a c = true := by
  have h1 : detLE a b := of_decide_eq_true hab
  have h2 : detLE b c := of_decide_eq_true hbc
  have : detLE a c := by
    rcases h1 with h1 | ⟨h1e, h1i⟩
    · rcases h2 with h2 | ⟨h2e, h2i⟩
      · exact Or.inl (h2.trans h1)
      · exact Or.inl (h2e ▸ h1)
    · rcases h2 with h2 | ⟨h2e, h2i⟩
      · exact Or.inl (by rw [h1e]; exact h2)
      · exact Or.inr ⟨h1e.trans h2e, h1i.trans h2i⟩
    
  exact decide_eq_true this

lemma mem_candidatesFor (c : ℕ) (conf_thr : ℚ) (scores : List (List ℚ))
    (boxes : List BoxR) (d : Det) (h : d ∈ candidatesFor c conf_thr scores boxes) :
    d.class_id = c ∧ conf_thr ≤ d.conf ∧
      d.conf = (scores.getD d.aidx []).getD c 0 ∧
      d.box = boxes.getD d.aidx dBoxR ∧ d.aidx < scores.length := by
  unfold candidatesFor at h
  rw [List.mem_filterMap] at h
  obtain ⟨i, hi, hd⟩ := h
  rw [List.mem_range] at hi
  split at hd
  · rename_i hc
    rw [Option.some_inj] at hd
    subst hd
    exact ⟨rfl, hc, rfl, rfl, hi⟩
  · exact absurd hd (by simp)

lemma mem_classDets (iou_thr conf_thr : ℚ) (mpc c : ℕ)
    (scores : List (List ℚ)) (boxes : List BoxR) (d : Det)
    (h : d ∈ classDets iou_thr conf_thr mpc c scores boxes) :
    d ∈ candidatesFor c conf_thr scores boxes := by
  unfold classDets at h
  have h1 := (nms_sublist iou_thr mpc _).mem h
  exact (List.mergeSort_perm _ detLEb).mem_iff.mp h1

lemma classDets_class (iou_thr conf_thr : ℚ) (mpc c : ℕ)
    (scores : List (List ℚ)) (boxes : List BoxR) (d : Det)
    (h : d ∈ classDets iou_thr conf_thr mpc c scores boxes) :
    d.class_id = c :=
  (mem_candidatesFor c conf_thr scores boxes d
    (mem_classDets iou_thr conf_thr mpc c scores boxes d h)).1

lemma mem_mergedDets (K : ℕ) (iou_thr conf_thr : ℚ) (mpc : ℕ)
    (scores : List (List ℚ)) (boxes : List BoxR) (d : Det)
    (h : d ∈ mergedDets K iou_thr conf_thr mpc scores boxes) :
    ∃ c, c < K ∧ d ∈ classDets iou_thr conf_thr mpc (c + 1) scores boxes := by
  unfold mergedDets at h
  rw [List.mem_flatten] at h
  obtain ⟨l, hl, hd⟩ := h
  rw [List.mem_map] at hl
  obtain ⟨c, hc, rfl⟩ := hl
  exact ⟨c, List.mem_range.mp hc, hd⟩

lemma mem_decodeDets (K : ℕ) (conf_thr iou_thr : ℚ) (mpc mt : ℕ)
    (scores : List (List ℚ)) (regs : List (ℝ × ℝ × ℝ × ℝ))
    (anchors : List Anchor) (d : Det)
    (h : d ∈ decodeDets K conf_thr iou_thr mpc mt scores regs anchors) :
    d ∈ mergedDets K iou_thr conf_thr mpc scores (decodedBoxes anchors regs) := by
  unfold decodeDets at h
  have h1 := (List.take_sublist mt _).mem h
  exact (List.mergeSort_perm _ detLEb).mem_iff.mp h1

/-- C3: the decoder never returns two detections of the same class with IoU at
or above `iou_threshold`: any two distinct positions in the returned list that
carry the same class have IoU strictly below the threshold. -/
theorem decode_nms_no_overlap (K : ℕ) (conf_thr iou_thr : ℚ) (mpc mt : ℕ)
    (scores : List (List ℚ)) (regs : List (ℝ × ℝ × ℝ × ℝ))
    (anchors : List Anchor) :
    (decodeDets K conf_thr iou_thr mpc mt scores regs anchors).Pairwise
      (fun d d' => d.class_id = d'.class_id → iouR d.box d'.box < (iou_thr : ℝ)) := by
  have hsym : Symmetric (fun d d' : Det =>
      d.class_id = d'.class_id → iouR d.box d'.box < (iou_thr : ℝ)) := by
    intro x y hxy h
    rw [iouR_comm]
    exact hxy h.symm
  have hmerged : (mergedDets K iou_thr conf_thr mpc scores
      (decodedBoxes anchors regs)).Pairwise
      (fun d d' => d.class_id = d'.class_id → iouR d.box d'.box < (iou_thr : ℝ)) := by
    unfold mergedDets
    rw [List.pairwise_flatten]
    constructor
    · intro l hl
      rw [List.mem_map] at hl
      obtain ⟨c, hc, rfl⟩ := hl
      unfold classDets
      exact (nms_pairwise iou_thr mpc _).imp
        (fun {d d'} (h : iouR d.box d'.box < (iou_thr : ℝ))
          (_ : d.class_id = d'.class_id) => h)
    · rw [List.pairwise_map]
      refine (List.pairwise_lt_range K).imp ?_
      intro c c' hlt x hx y hy hclass
      have hcx := classDets_class iou_thr conf_thr mpc (c + 1) scores _ x hx
      have hcy := classDets_class iou_thr conf_thr mpc (c' + 1) scores _ y hy
      rw [hcx, hcy] at hclass
      omega
  unfold decodeDets
  refine List.Pairwise.sublist (List.take_sublist mt _) ?_
  exact ((List.mergeSort_perm _ detLEb).pairwise_iff (fun h => hsym h)).mpr hmerged

lemma classDets_length_le (iou_thr conf_thr : ℚ) (mpc c : ℕ)
    (scores : List (List ℚ)) (boxes : List BoxR) :
    (classDets iou_thr conf_thr mpc c scores boxes).length ≤ mpc := by
  unfold classDets
  exact nms_length_le iou_thr mpc _

lemma countP_classDets_eq_zero (iou_thr conf_thr : ℚ) (mpc c c' : ℕ)
    (scores : List (List ℚ)) (boxes : List BoxR) (hne : c' ≠ c) :
    (classDets iou_thr conf_thr mpc c' scores boxes).countP
      (fun d => d.class_id == c) = 0 := by
  rw [List.countP_eq_zero]
  intro d hd
  have := classDets_class iou_thr conf_thr mpc c' scores boxes d hd
  simp [this, hne]

lemma sum_countP_classDets_le (iou_thr conf_thr : ℚ) (mpc c : ℕ)
    (scores : List (List ℚ)) (boxes : List BoxR) :
    ∀ (cs : List ℕ), cs.Nodup →
      (cs.map (fun c0 => (classDets iou_thr conf_thr mpc (c0 + 1) scores
        boxes).countP (fun d => d.class_id == c))).sum ≤ mpc
  | [], _ => by simp
  | c0 :: cs', hnd => by
      simp only [List.map_cons, List.sum_cons]
      by_cases hc : c0 + 1 = c
      · have htail : (cs'.map (fun c1 => (classDets iou_thr conf_thr mpc
            (c1 + 1) scores boxes).countP (fun d => d.class_id == c))).sum = 0 := by
          apply List.sum_eq_zero
          intro x hx
          rw [List.mem_map] at hx
          obtain ⟨c1, hc1, rfl⟩ := hx
          apply countP_classDets_eq_zero
          have hne : c1 ≠ c0 := by
            intro h
            exact (List.nodup_cons.mp hnd).1 (h ▸ hc1)
          omega
        rw [htail]
        have hhead : (classDets iou_thr conf_thr mpc (c0 + 1) scores
            boxes).countP (fun d => d.class_id == c) ≤
            (classDets iou_thr conf_thr mpc (c0 + 1) scores boxes).length :=
          List.countP_le_length _
        have hlen := classDets_length_le iou_thr conf_thr mpc (c0 + 1) scores boxes
        omega
      · rw [countP_classDets_eq_zero iou_thr conf_thr mpc c (c0 + 1) scores boxes hc]
        simpa using sum_countP_classDets_le iou_thr conf_thr mpc c scores boxes cs'
          (List.nodup_cons.mp hnd).2

lemma countP_mergedDets_le (K : ℕ) (iou_thr conf_thr : ℚ) (mpc : ℕ)
    (scores : List (List ℚ)) (boxes : List BoxR) (c : ℕ) :
    (mergedDets K iou_thr conf_thr mpc scores boxes).countP
      (fun d => d.class_id == c) ≤ mpc := by
  unfold mergedDets
  rw [List.countP_flatten, List.map_map]
  simp only [Function.comp_def]
  exact sum_countP_classDets_le iou_thr conf_thr mpc c scores boxes
    (List.range K) (List.nodup_range K)

lemma take_dominates (l : List Det) (n : ℕ)
    (hs : l.Pairwise (fun a b => detLEb a b = true)) (d : Det)
    (hd : d ∈ l.take n) (d' : Det) (hd' : d' ∈ l) (hnd' : d' ∉ l.take n) :
    detLE d d' := by
  have hsplit : l = l.take n ++ l.drop n := (List.take_append_drop n l).symm
  have hd'drop : d' ∈ l.drop n := by
    rcases List.mem_append.mp (hsplit ▸ hd') with h | h
    · exact absurd h hnd'
    · exact h
  have hpw := hs
  rw [hsplit, List.pairwise_append] at hpw
  exact of_decide_eq_true (hpw.2.2 d hd d' hd'drop)

/-- C4: the decoder returns at most `max_total` detections, at most
`max_per_class` of any single class, and when the merged per-class survivors
exceed `max_total` it returns exactly `max_total` detections, each of which
dominates (higher confidence, or equal confidence and smaller or equal anchor
index) every merged survivor that was dropped. -/
theorem decode_size_bounds (K : ℕ) (conf_thr iou_thr : ℚ) (mpc mt : ℕ)
    (scores : List (List ℚ)) (regs : List (ℝ × ℝ × ℝ × ℝ))
    (anchors : List Anchor) :
    (decodeDets K conf_thr iou_thr mpc mt scores regs anchors).length ≤ mt ∧
    (∀ c, (decodeDets K conf_thr iou_thr mpc mt scores regs anchors).countP
        (fun d => d.class_id == c) ≤ mpc) ∧
    (mt < (mergedDets K iou_thr conf_thr mpc scores
        (decodedBoxes anchors regs)).length →
      (decodeDets K conf_thr iou_thr mpc mt scores regs anchors).length = mt ∧
      ∀ d ∈ decodeDets K conf_thr iou_thr mpc mt scores regs anchors,
        ∀ d' ∈ mergedDets K iou_thr conf_thr mpc scores
          (decodedBoxes anchors regs),
          d' ∉ decodeDets K conf_thr iou_thr mpc mt scores regs anchors →
            detLE d d') := by
  refine ⟨?_, ?_, ?_⟩
  · unfold decodeDets
    exact List.length_take_le mt _
  · intro c
    have h1 : (decodeDets K conf_thr iou_thr mpc mt scores regs anchors).countP
        (fun d => d.class_id == c) ≤
        ((mergedDets K iou_thr conf_thr mpc scores
          (decodedBoxes anchors regs)).mergeSort detLEb).countP
          (fun d => d.class_id == c) := by
      unfold decodeDets
      exact List.Sublist.countP_le _ (List.take_sublist mt _)
    have h2 := (List.mergeSort_perm (mergedDets K iou_thr conf_thr mpc scores
      (decodedBoxes anchors regs)) detLEb).countP_eq (fun d => d.class_id == c)
    rw [h2] at h1
    exact le_trans h1 (countP_mergedDets_le K iou_thr conf_thr mpc scores _ c)
  · intro hlt
    have hperm := List.mergeSort_perm (mergedDets K iou_thr conf_thr mpc scores
      (decodedBoxes anchors regs)) detLEb
    have hlen : ((mergedDets K iou_thr conf_thr mpc scores
        (decodedBoxes anchors regs)).mergeSort detLEb).length =
        (mergedDets K iou_thr conf_thr mpc scores
          (decodedBoxes anchors regs)).length := hperm.length_eq
    have hsorted := List.sorted_mergeSort detLEb_trans detLEb_total
      (mergedDets K iou_thr conf_thr mpc scores (decodedBoxes anchors regs))
    constructor
    · unfold decodeDets
      rw [List.length_take, hlen]
      omega
    · intro d hd d' hd' hnd'
      have hd's : d' ∈ (mergedDets K iou_thr conf_thr mpc scores
          (decodedBoxes anchors regs)).mergeSort detLEb := hperm.mem_iff.mpr hd'
      exact take_dominates _ mt hsorted d hd d' hd's hnd'

lemma getD_row_bounds (row : List ℚ) (hrow : ∀ x ∈ row, 0 ≤ x ∧ x ≤ 1) (c : ℕ) :
    0 ≤ row.getD c 0 ∧ row.getD c 0 ≤ 1 := by
  by_cases hc : c < row.length
  · rw [List.getD_eq_getElem _ _ hc]
    exact hrow _ (row.getElem_mem hc)
  · rw [List.getD_eq_default _ _ (le_of_not_lt hc)]
    norm_num

lemma scores_entry_bounds (scores : List (List ℚ))
    (hs : ∀ row ∈ scores, ∀ x ∈ row, 0 ≤ x ∧ x ≤ 1) (i c : ℕ) :
    0 ≤ (scores.getD i []).getD c 0 ∧ (scores.getD i []).getD c 0 ≤ 1 := by
  by_cases hi : i < scores.length
  · rw [List.getD_eq_getElem _ _ hi]
    exact getD_row_bounds _ (hs _ (scores.getElem_mem hi)) c
  · rw [List.getD_eq_default _ _ (le_of_not_lt hi)]
    exact getD_row_bounds [] (by simp) c

lemma clip01_bounds (x : ℝ) : 0 ≤ clip01 x ∧ clip01 x ≤ 1 := by
  unfold clip01
  exact ⟨le_max_left 0 _, max_le zero_le_one (min_le_left 1 x)⟩

lemma decodeBoxReg_in01 (a : Anchor) (t : ℝ × ℝ × ℝ × ℝ) :
    boxIn01 (decodeBoxReg a t) := by
  unfold decodeBoxReg boxIn01
  exact ⟨clip01_bounds _, clip01_bounds _, clip01_bounds _, clip01_bounds _⟩

lemma decodedBoxes_getD_in01 (anchors : List Anchor)
    (regs : List (ℝ × ℝ × ℝ × ℝ)) (i : ℕ) :
    boxIn01 ((decodedBoxes anchors regs).getD i dBoxR) := by
  by_cases hi : i < (decodedBoxes anchors regs).length
  · rw [List.getD_eq_getElem _ _ hi]
    unfold decodedBoxes at hi ⊢
    rw [List.getElem_map]
    exact decodeBoxReg_in01 _ _
  · rw [List.getD_eq_default _ _ (le_of_not_lt hi)]
    unfold dBoxR boxIn01
    norm_num

/-- C8: every record the decoder hands to consumers is laid out positionally
as `[class_id, confidence, xmin, ymin, xmax, ymax]`; when the raw scores lie
in `[0,1]` the confidence does too, the class id is in `1..K`, and the box
coordinates are normalized to `[0,1]` (so a consumer recovers pixels by
scaling positions 2..5 by the image width/height). -/
theorem decode_record_layout (K : ℕ) (conf_thr iou_thr : ℚ) (mpc mt : ℕ)
    (scores : List (List ℚ)) (regs : List (ℝ × ℝ × ℝ × ℝ))
    (anchors : List Anchor)
    (hs : ∀ row ∈ scores, ∀ x ∈ row, 0 ≤ x ∧ x ≤ 1) :
    ∀ r ∈ decodeRecords K conf_thr iou_thr mpc mt scores regs anchors,
      ∃ d ∈ decodeDets K conf_thr iou_thr mpc mt scores regs anchors,
        r.length = 6 ∧
        r.getD 0 0 = (d.class_id : ℝ) ∧ r.getD 1 0 = ((d.conf : ℚ) : ℝ) ∧
        r.getD 2 0 = d.box.xmin ∧ r.getD 3 0 = d.box.ymin ∧
        r.getD 4 0 = d.box.xmax ∧ r.getD 5 0 = d.box.ymax ∧
        1 ≤ d.class_id ∧ d.class_id ≤ K ∧
        0 ≤ d.conf ∧ d.conf ≤ 1 ∧ boxIn01 d.box := by
  intro r hr
  unfold decodeRecords at hr
  rw [List.mem_map] at hr
  obtain ⟨d, hd, rfl⟩ := hr
  obtain ⟨c, hc, hcd⟩ := mem_mergedDets K iou_thr conf_thr mpc scores _ d
    (mem_decodeDets K conf_thr iou_thr mpc mt scores regs anchors d hd)
  obtain ⟨hclass, hconf_le, hconf_eq, hbox, haidx⟩ :=
    mem_candidatesFor (c + 1) conf_thr scores _ d
      (mem_classDets iou_thr conf_thr mpc (c + 1) scores _ d hcd)
  have hbounds := scores_entry_bounds scores hs d.aidx (c + 1)
  refine ⟨d, hd, by simp [detectionRecord], by simp [detectionRecord],
    by simp [detectionRecord], by simp [detectionRecord],
    by simp [detectionRecord], by simp [detectionRecord],
    by simp [detectionRecord], by omega, by omega, ?_, ?_, ?_⟩
  · rw [hconf_eq]
    exact hbounds.1
  · rw [hconf_eq]
    exact hbounds.2
  · rw [hbox]
    exact decodedBoxes_getD_in01 anchors regs d.aidx

/-- Witness for C3 at a concrete one-anchor, one-class decode input. -/
theorem decode_nms_no_overlap_witness :
    (decodeDets 1 (1/2) (1/2) 5 5 [[0, 1]] [(0, 0, 0, 0)]
      [⟨⟨0, 0, 1, 1⟩, 1, 1, 1, 1⟩]).Pairwise
      (fun d d' => d.class_id = d'.class_id →
        iouR d.box d'.box < ((1/2 : ℚ) : ℝ)) :=
  decode_nms_no_overlap 1 (1/2) (1/2) 5 5 [[0, 1]] [(0, 0, 0, 0)]
    [⟨⟨0, 0, 1, 1⟩, 1, 1, 1, 1⟩]

/-- Witness for C4 at a concrete one-anchor, one-class decode input. -/
theorem decode_size_bounds_witness :
    (decodeDets 1 (1/2) (1/2) 5 5 [[0, 1]] [(0, 0, 0, 0)]
      [⟨⟨0, 0, 1, 1⟩, 1, 1, 1, 1⟩]).length ≤ 5 :=
  (decode_size_bounds 1 (1/2) (1/2) 5 5 [[0, 1]] [(0, 0, 0, 0)]
    [⟨⟨0, 0, 1, 1⟩, 1, 1, 1, 1⟩]).1

/-- Witness for C8 at a concrete one-anchor, one-class decode input with
scores inside `[0,1]`. -/
theorem decode_record_layout_witness :
    (∀ row ∈ [[(0 : ℚ), 1]], ∀ x ∈ row, 0 ≤ x ∧ x ≤ 1) ∧
      (∀ r ∈ decodeRecords 1 (1/2) (1/2) 5 5 [[0, 1]] [(0, 0, 0, 0)]
          [⟨⟨0, 0, 1, 1⟩, 1, 1, 1, 1⟩],
        ∃ d ∈ decodeDets 1 (1/2) (1/2) 5 5 [[0, 1]] [(0, 0, 0, 0)]
            [⟨⟨0, 0, 1, 1⟩, 1, 1, 1, 1⟩],
          r.length = 6 ∧
          r.getD 0 0 = (d.class_id : ℝ) ∧ r.getD 1 0 = ((d.conf : ℚ) : ℝ) ∧
          r.getD 2 0 = d.box.xmin ∧ r.getD 3 0 = d.box.ymin ∧
          r.getD 4 0 = d.box.xmax ∧ r.getD 5 0 = d.box.ymax ∧
          1 ≤ d.class_id ∧ d.class_id ≤ 1 ∧
          0 ≤ d.conf ∧ d.conf ≤ 1 ∧ boxIn01 d.box) :=
  ⟨by
    intro row hrow x hx
    simp only [List.mem_singleton] at hrow
    subst hrow
    simp only [List.mem_cons, List.mem_singleton, List.not_mem_nil, or_false] at hx
    rcases hx with rfl | rfl <;> norm_num,
   decode_record_layout 1 (1/2) (1/2) 5 5 [[0, 1]] [(0, 0, 0, 0)]
    [⟨⟨0, 0, 1, 1⟩, 1, 1, 1, 1⟩] (by
      intro row hrow x hx
      simp only [List.mem_singleton] at hrow
      subst hrow
      simp only [List.mem_cons, List.mem_singleton, List.not_mem_nil, or_false] at hx
      rcases hx with rfl | rfl <;> norm_num)⟩

/-- C9: `display_boxes` selects exactly the same boxes to draw for any two
values of its `th` parameter, because the confidence filter compares against
the module-level global `score_thresh` and never reads `th`. -/
theorem display_boxes_th_independent (score_thresh : ℚ)
    (preds : List (List ℚ)) (th₁ th₂ : ℚ) :
    display_boxes_selected score_thresh preds th₁ =
      display_boxes_selected score_thresh preds th₂ := rfl

lemma numTrain_le (n : ℕ) : numTrain n ≤ n := by
  unfold numTrain pyRound
  rw [Int.toNat_le]
  rw [Int.floor_le_iff]
  push_cast
  nlinarith [Nat.cast_nonneg (α := ℚ) n]

/-- C10: the train/validation split partitions the sorted key list:
`train_keys` and `val_keys` are disjoint, their concatenation is the whole
key list, and `train_keys` has exactly `int(round(0.8 * len(keys)))` keys. -/
theorem train_val_split_partition (keys : List String) (hnd : keys.Nodup) :
    train_keys keys ++ val_keys keys = keys ∧
    (∀ k ∈ train_keys keys, k ∉ val_keys keys) ∧
    (train_keys keys).length = (pyRound (4/5 * keys.length)).toNat := by
  refine ⟨List.take_append_drop _ keys, ?_, ?_⟩
  · intro k hk
    exact fun hv => List.disjoint_take_drop hnd le_rfl hk hv
  · unfold train_keys
    rw [List.length_take]
    exact min_eq_left (numTrain_le keys.length)

/-- Witness for C10 at a concrete three-key ground-truth store. -/
theorem train_val_split_partition_witness :
    (["a", "b", "c"] : List String).Nodup ∧
      (train_keys ["a", "b", "c"] ++ val_keys ["a", "b", "c"] = ["a", "b", "c"] ∧
       (∀ k ∈ train_keys ["a", "b", "c"], k ∉ val_keys ["a", "b", "c"]) ∧
       (train_keys ["a", "b", "c"]).length =
         (pyRound (4/5 * (["a", "b", "c"] : List String).length)).toNat) :=
  ⟨by decide, train_val_split_partition ["a", "b", "c"] (by decide)⟩

end SSD
